import Mathlib

/-
Verification development for the AI-storyteller repository.

Part 1 embeds the speaker-alignment core of
`src/scripts/transcribeWithSpeakers.py` (function
`align_transcription_with_speakers`, lines 199-234).

Modelling choices:
* Times (`seg["start"]`, `seg["end"]`) are Python floats produced by the
  transcription / diarization services; they are modelled as rationals `ℚ`
  (exact arithmetic; the function only uses `max`, `min`, `-`, `>`).
* A transcription segment is a record with its `start`/`end` times, its
  `text`, its `id`, and an opaque association list `extra` standing for the
  remaining fields the script copies verbatim (`seek`, `tokens`,
  `temperature`, ...).  `end` is a Lean keyword, so the field is named
  `stop`.
* The Python dict spread `{**trans_seg, "speaker": ...}` is modelled by the
  structure extension `AlignedSeg extends TransSeg`.
-/

/-- A transcription segment, as produced by `transcribe_with_whisper`
(lines 150-162): `start`/`end` times, `text`, `id`, plus the remaining
fields, kept opaque in `extra`. -/
structure TransSeg where
  start : ℚ
  stop : ℚ
  text : String
  id : Int
  extra : List (String × String)
  deriving DecidableEq

/-- A speaker-diarization segment (lines 188-194): a `speaker` label and
`start`/`end` times.  The `duration` field of the Python dict is
`end - start` and is never read by the aligner, so it is omitted. -/
structure SpeakerSeg where
  speaker : String
  start : ℚ
  stop : ℚ
  deriving DecidableEq

/-- An aligned segment (lines 228-231): the transcription segment with the
extra key `"speaker"`, modelling `{**trans_seg, "speaker": ...}`. -/
structure AlignedSeg extends TransSeg where
  speaker : String
  deriving DecidableEq

/-- Temporal overlap of the transcript interval `[tS, tE]` with the speaker
segment `s` (lines 218-221):
`overlap = max(0, min(trans_end, speaker_end) - max(trans_start, speaker_start))`. -/
def overlapQ (tS tE : ℚ) (s : SpeakerSeg) : ℚ :=
  max 0 (min tE s.stop - max tS s.start)

/-- One iteration of the inner loop (lines 214-225): the accumulator is the
pair `(best_speaker, best_overlap)`, updated only when
`overlap > best_overlap`. -/
def speakerStep (tS tE : ℚ) (acc : Option String × ℚ) (s : SpeakerSeg) :
    Option String × ℚ :=
  if acc.2 < overlapQ tS tE s then (some s.speaker, overlapQ tS tE s) else acc

/-- The inner loop over all speaker segments, started from
`best_speaker = None`, `best_overlap = 0` (lines 211-225). -/
def bestSpeakerFold (tS tE : ℚ) (ss : List SpeakerSeg) : Option String × ℚ :=
  ss.foldl (speakerStep tS tE) (none, 0)

/-- Models the Python expression `best_speaker if best_speaker else
"UNKNOWN"` (line 230): both `None` and the empty string are falsy. -/
def pyOrUnknown : Option String → String
  | none => "UNKNOWN"
  | some s => if s = "" then "UNKNOWN" else s

/-- The body of the outer loop (lines 206-232): build the aligned segment
for one transcription segment. -/
def alignOne (ss : List SpeakerSeg) (t : TransSeg) : AlignedSeg :=
  { toTransSeg := t, speaker := pyOrUnknown (bestSpeakerFold t.start t.stop ss).1 }

/-- `align_transcription_with_speakers` (lines 199-234): the outer loop
appends one aligned segment per transcription segment. -/
def align_transcription_with_speakers (ts : List TransSeg)
    (ss : List SpeakerSeg) : List AlignedSeg :=
  ts.foldl (fun acc t => acc ++ [alignOne ss t]) []

/-! ### Supporting lemmas about the alignment fold -/

theorem foldl_append_singleton {α β : Type} (f : α → β) :
    ∀ (l : List α) (acc : List β),
      l.foldl (fun a x => a ++ [f x]) acc = acc ++ l.map f
  | [], acc => by simp
  | x :: l, acc => by
      simp [List.foldl_cons, foldl_append_singleton f l]

theorem align_eq_map (ts : List TransSeg) (ss : List SpeakerSeg) :
    align_transcription_with_speakers ts ss = ts.map (alignOne ss) := by
  simpa [align_transcription_with_speakers] using
    foldl_append_singleton (alignOne ss) ts []

theorem overlapQ_nonneg (tS tE : ℚ) (s : SpeakerSeg) : 0 ≤ overlapQ tS tE s :=
  le_max_left _ _

theorem bsf_snd_mono (tS tE : ℚ) :
    ∀ (ss : List SpeakerSeg) (acc : Option String × ℚ),
      acc.2 ≤ (ss.foldl (speakerStep tS tE) acc).2
  | [], _ => le_refl _
  | s :: ss, acc => by
      have h := bsf_snd_mono tS tE ss (speakerStep tS tE acc s)
      refine le_trans ?_ h
      unfold speakerStep
      split
      · exact le_of_lt (by assumption)
      · exact le_refl _

theorem bsf_stable (tS tE : ℚ) :
    ∀ (ss : List SpeakerSeg) (acc : Option String × ℚ),
      (∀ s ∈ ss, overlapQ tS tE s ≤ acc.2) →
      ss.foldl (speakerStep tS tE) acc = acc
  | [], _, _ => rfl
  | s :: ss, acc, h => by
      have hs : overlapQ tS tE s ≤ acc.2 := h s (List.mem_cons_self s ss)
      have hstep : speakerStep tS tE acc s = acc := by
        unfold speakerStep
        split
        · exact absurd hs (not_le.mpr (by assumption))
        · rfl
      rw [List.foldl_cons, hstep]
      exact bsf_stable tS tE ss acc (fun x hx => h x (List.mem_cons_of_mem s hx))

theorem bsf_ub (tS tE : ℚ) :
    ∀ (ss : List SpeakerSeg) (acc : Option String × ℚ) (s : SpeakerSeg),
      s ∈ ss → overlapQ tS tE s ≤ (ss.foldl (speakerStep tS tE) acc).2
  | [], _, _, h => absurd h (List.not_mem_nil _)
  | x :: ss, acc, s, h => by
      rcases List.mem_cons.mp h with h | h
      · subst h
        refine le_trans ?_ (bsf_snd_mono tS tE ss (speakerStep tS tE acc s))
        unfold speakerStep
        split
        · exact le_refl _
        · exact le_of_not_lt (by assumption)
      · exact bsf_ub tS tE ss (speakerStep tS tE acc x) s h

theorem bsf_origin (tS tE : ℚ) :
    ∀ (ss : List SpeakerSeg) (acc : Option String × ℚ),
      ss.foldl (speakerStep tS tE) acc = acc ∨
      ∃ s ∈ ss, ss.foldl (speakerStep tS tE) acc =
        (some s.speaker, overlapQ tS tE s) ∧ acc.2 < overlapQ tS tE s
  | [], acc => Or.inl rfl
  | x :: ss, acc => by
      rw [List.foldl_cons]
      by_cases hx : acc.2 < overlapQ tS tE x
      · have hstep : speakerStep tS tE acc x = (some x.speaker, overlapQ tS tE x) := by
          unfold speakerStep
          split
          · rfl
          · exact absurd hx (by assumption)
        rw [hstep]
        rcases bsf_origin tS tE ss (some x.speaker, overlapQ tS tE x) with h | ⟨s, hs, heq, hlt⟩
        · exact Or.inr ⟨x, List.mem_cons_self x ss, h, hx⟩
        · exact Or.inr ⟨s, List.mem_cons_of_mem x hs, heq,
            lt_trans hx (by simpa using hlt)⟩
      · have hstep : speakerStep tS tE acc x = acc := by
          unfold speakerStep
          split
          · exact absurd (by assumption) hx
          · rfl
        rw [hstep]
        rcases bsf_origin tS tE ss acc with h | ⟨s, hs, heq, hlt⟩
        · exact Or.inl h
        · exact Or.inr ⟨s, List.mem_cons_of_mem x hs, heq, hlt⟩

theorem bsf_first_max (tS tE : ℚ) :
    ∀ (ss : List SpeakerSeg) (acc : Option String × ℚ) (i : Nat) (hi : i < ss.length),
      acc.2 < overlapQ tS tE (ss.get ⟨i, hi⟩) →
      (∀ s ∈ ss, overlapQ tS tE s ≤ overlapQ tS tE (ss.get ⟨i, hi⟩)) →
      (∀ j (hj : j < ss.length), j < i →
        overlapQ tS tE (ss.get ⟨j, hj⟩) < overlapQ tS tE (ss.get ⟨i, hi⟩)) →
      ss.foldl (speakerStep tS tE) acc =
        (some (ss.get ⟨i, hi⟩).speaker, overlapQ tS tE (ss.get ⟨i, hi⟩))
  | [], _, i, hi, _, _, _ => absurd hi (Nat.not_lt_zero i)
  | x :: ss, acc, 0, hi, hacc, hmax, _ => by
      have hx : (List.get (x :: ss) ⟨0, hi⟩) = x := rfl
      rw [hx] at hacc hmax ⊢
      rw [List.foldl_cons]
      have hstep : speakerStep tS tE acc x = (some x.speaker, overlapQ tS tE x) := by
        unfold speakerStep
        split
        · rfl
        · exact absurd hacc (by assumption)
      rw [hstep]
      exact bsf_stable tS tE ss (some x.speaker, overlapQ tS tE x)
        (fun s hs => hmax s (List.mem_cons_of_mem x hs))
  | x :: ss, acc, i + 1, hi, hacc, hmax, hfirst => by
      have hget : (List.get (x :: ss) ⟨i + 1, hi⟩) =
          ss.get ⟨i, Nat.lt_of_succ_lt_succ hi⟩ := rfl
      rw [hget] at hacc hmax hfirst ⊢
      rw [List.foldl_cons]
      have hxlt : overlapQ tS tE x < overlapQ tS tE (ss.get ⟨i, Nat.lt_of_succ_lt_succ hi⟩) := by
        have := hfirst 0 (Nat.succ_pos _) (Nat.succ_pos _)
        simpa using this
      have hacc' : (speakerStep tS tE acc x).2 <
          overlapQ tS tE (ss.get ⟨i, Nat.lt_of_succ_lt_succ hi⟩) := by
        unfold speakerStep
        split
        · exact hxlt
        · exact hacc
      refine bsf_first_max tS tE ss (speakerStep tS tE acc x) i
        (Nat.lt_of_succ_lt_succ hi) hacc'
        (fun s hs => hmax s (List.mem_cons_of_mem x hs)) ?_
      intro j hj hji
      have := hfirst (j + 1) (Nat.succ_lt_succ hj) (Nat.succ_lt_succ hji)
      simpa using this

theorem align_getElem? (ts : List TransSeg) (ss : List SpeakerSeg) (k : Nat) :
    (align_transcription_with_speakers ts ss)[k]? = (ts[k]?).map (alignOne ss) := by
  rw [align_eq_map]
  exact List.getElem?_map (alignOne ss) ts k

/-! ### Concrete segments used by witnesses and counterexamples -/

/-- The transcript segment `[0,5]` of the spec's worked example. -/
def tSeg05 : TransSeg := { start := 0, stop := 5, text := "hello", id := 0, extra := [] }

/-- Speaker segment `A=[0,2]` of the spec's worked example. -/
def segA : SpeakerSeg := { speaker := "A", start := 0, stop := 2 }

/-- Speaker segment `B=[1,6]` of the spec's worked example. -/
def segB : SpeakerSeg := { speaker := "B", start := 1, stop := 6 }

/-- A speaker segment disjoint from `[0,5]` labelled `"C"`. -/
def segC : SpeakerSeg := { speaker := "C", start := 6, stop := 7 }

/-- A second speaker segment disjoint from `[0,5]` labelled `"D"`. -/
def segD : SpeakerSeg := { speaker := "D", start := 8, stop := 9 }

/-- A speaker segment covering `[0,5]` whose label is the empty string. -/
def segEmpty : SpeakerSeg := { speaker := "", start := 0, stop := 5 }

/-- A speaker segment disjoint from `[0,5]` labelled `"S0"`. -/
def segS0 : SpeakerSeg := { speaker := "S0", start := 10, stop := 12 }

/-! ### Claims C1, C2, C3, C9, C10 about the aligner -/

/-- C1 (amended): for well-formed segments, whenever the first speaker
segment (in input order) attaining the maximum overlap with a transcript
segment has positive overlap and a non-empty label,
`align_transcription_with_speakers` assigns that segment's label to the
transcript segment; ties on the maximum keep the first candidate in input
order.  (As literally stated the claim fails when the maximum overlap is `0`
— the result is then `"UNKNOWN"`, not the first tying segment's label — and
when the winning label is the empty string, see C10.) -/
theorem C1_first_max_label (ts : List TransSeg) (ss : List SpeakerSeg)
    (k : Nat) (t : TransSeg) (ht : ts[k]? = some t) (i : Nat) (hi : i < ss.length)
    (hwft : t.start ≤ t.stop) (hwfs : ∀ s ∈ ss, s.start ≤ s.stop)
    (hpos : 0 < overlapQ t.start t.stop (ss.get ⟨i, hi⟩))
    (hmax : ∀ s ∈ ss, overlapQ t.start t.stop s ≤ overlapQ t.start t.stop (ss.get ⟨i, hi⟩))
    (hfirst : ∀ j (hj : j < ss.length), j < i →
      overlapQ t.start t.stop (ss.get ⟨j, hj⟩) < overlapQ t.start t.stop (ss.get ⟨i, hi⟩))
    (hne : (ss.get ⟨i, hi⟩).speaker ≠ "") :
    ((align_transcription_with_speakers ts ss)[k]?).map AlignedSeg.speaker =
      some (ss.get ⟨i, hi⟩).speaker := by
  rw [align_getElem?, ht]
  have hfold := bsf_first_max t.start t.stop ss (none, 0) i hi hpos hmax hfirst
  have hone : (alignOne ss t).speaker =
      pyOrUnknown (ss.foldl (speakerStep t.start t.stop) (none, 0)).1 := rfl
  show some (alignOne ss t).speaker = _
  rw [hone, hfold]
  simp only [pyOrUnknown]
  rw [if_neg hne]

/-- Witness for C1: the spec's worked example — transcript `[0,5]`, speakers
`A=[0,2]`, `B=[1,6]` — yields label `"B"` (overlaps `2` and `4`). -/
theorem C1_first_max_label_witness :
    ((align_transcription_with_speakers [tSeg05] [segA, segB])[0]?).map
      AlignedSeg.speaker = some "B" := by
  have h := C1_first_max_label [tSeg05] [segA, segB] 0 tSeg05 rfl 1 (by norm_num)
    (by norm_num [tSeg05])
    (by
      intro s hs
      rcases List.mem_cons.mp hs with h | h
      · subst h; norm_num [segA]
      · rcases List.mem_cons.mp h with h | h
        · subst h; norm_num [segB]
        · exact absurd h (List.not_mem_nil s))
    (by norm_num [overlapQ, tSeg05, segB, max_def, min_def])
    (by
      intro s hs
      rcases List.mem_cons.mp hs with h | h
      · subst h; norm_num [overlapQ, tSeg05, segA, segB, max_def, min_def]
      · rcases List.mem_cons.mp h with h | h
        · subst h; norm_num
        · exact absurd h (List.not_mem_nil s))
    (by
      intro j hj hji
      interval_cases j
      norm_num [overlapQ, tSeg05, segA, segB, max_def, min_def])
    (by simp [segB])
  simpa [segB] using h

/-- Counterexample for C1 as stated: transcript `[0,5]` with speaker
segments `C=[6,7]` and `D=[8,9]` — both overlaps are `0`, so several
segments tie for the maximum overlap and the claim says the first one
(`"C"`) is kept; the code instead assigns `"UNKNOWN"`, because the
comparison is strictly-greater-than against an initial best of `0`. -/
theorem C1_counterexample :
    overlapQ tSeg05.start tSeg05.stop segC = 0 ∧
    overlapQ tSeg05.start tSeg05.stop segD = 0 ∧
    ((align_transcription_with_speakers [tSeg05] [segC, segD])[0]?).map
      AlignedSeg.speaker = some "UNKNOWN" ∧
    (some "UNKNOWN" : Option String) ≠ some segC.speaker := by
  refine ⟨?_, ?_, ?_, by simp [segC]⟩
  · norm_num [overlapQ, tSeg05, segC, max_def, min_def]
  · norm_num [overlapQ, tSeg05, segD, max_def, min_def]
  · norm_num [align_transcription_with_speakers, alignOne, bestSpeakerFold,
      speakerStep, overlapQ, pyOrUnknown, tSeg05, segC, segD, max_def, min_def]

/-- C2: `align_transcription_with_speakers` returns a list of exactly the
same length as the transcript-segment input, and its `k`-th element is
derived (by `alignOne`, the loop body) from the `k`-th input transcript
segment, preserving order. -/
theorem C2_length_order (ts : List TransSeg) (ss : List SpeakerSeg) :
    (align_transcription_with_speakers ts ss).length = ts.length ∧
    ∀ k : Nat, (align_transcription_with_speakers ts ss)[k]? =
      (ts[k]?).map (alignOne ss) := by
  constructor
  · rw [align_eq_map]
    exact List.length_map ts (alignOne ss)
  · intro k
    exact align_getElem? ts ss k

/-- C3 (amended): provided every speaker label is non-empty and none is the
literal string `"UNKNOWN"`, the aligner assigns `"UNKNOWN"` to a transcript
segment exactly when no speaker segment has positive overlap with it
(including the empty-list case).  (As literally stated the claim fails when
a positive-overlap winner carries the empty string as its label — the code
then also yields `"UNKNOWN"` — or when a speaker is literally labelled
`"UNKNOWN"`.) -/
theorem C3_unknown_iff (ts : List TransSeg) (ss : List SpeakerSeg)
    (k : Nat) (t : TransSeg) (ht : ts[k]? = some t)
    (hlab : ∀ s ∈ ss, s.speaker ≠ "" ∧ s.speaker ≠ "UNKNOWN") :
    (((align_transcription_with_speakers ts ss)[k]?).map AlignedSeg.speaker =
      some "UNKNOWN") ↔ ∀ s ∈ ss, overlapQ t.start t.stop s = 0 := by
  rw [align_getElem?, ht]
  have hone : (alignOne ss t).speaker =
      pyOrUnknown (ss.foldl (speakerStep t.start t.stop) (none, 0)).1 := rfl
  have hmain : ((alignOne ss t).speaker = "UNKNOWN") ↔
      ∀ s ∈ ss, overlapQ t.start t.stop s = 0 := by
    constructor
    · intro h
      by_contra hc
      push_neg at hc
      obtain ⟨s, hs, hne⟩ := hc
      have hpos : 0 < overlapQ t.start t.stop s :=
        lt_of_le_of_ne (overlapQ_nonneg _ _ _) (Ne.symm hne)
      have hub := bsf_ub t.start t.stop ss (none, 0) s hs
      rcases bsf_origin t.start t.stop ss (none, 0) with ho | ⟨s', hs', heq, _⟩
      · rw [ho] at hub
        exact absurd hub (not_le.mpr hpos)
      · rw [hone, heq] at h
        simp only [pyOrUnknown] at h
        rcases hlab s' hs' with ⟨hne', hnu⟩
        rw [if_neg hne'] at h
        exact hnu h
    · intro h
      have hstable := bsf_stable t.start t.stop ss (none, 0)
        (fun s hs => le_of_eq (h s hs))
      rw [hone, hstable]
      rfl
  constructor
  · intro h
    exact hmain.mp (by simpa using h)
  · intro h
    have := hmain.mpr h
    simpa using this

/-- Witness for C3: transcript `[0,5]` and the single disjoint speaker
segment `S0=[10,12]` (overlap `0`) yield the label `"UNKNOWN"`. -/
theorem C3_unknown_iff_witness :
    ((align_transcription_with_speakers [tSeg05] [segS0])[0]?).map
      AlignedSeg.speaker = some "UNKNOWN" := by
  refine (C3_unknown_iff [tSeg05] [segS0] 0 tSeg05 rfl ?_).mpr ?_
  · intro s hs
    rcases List.mem_cons.mp hs with h | h
    · subst h; exact ⟨by decide, by decide⟩
    · exact absurd h (List.not_mem_nil s)
  · intro s hs
    rcases List.mem_cons.mp hs with h | h
    · subst h; norm_num [overlapQ, tSeg05, segS0, max_def, min_def]
    · exact absurd h (List.not_mem_nil s)

/-- Counterexample for C3 as stated: the speaker segment `[0,5]` labelled
with the empty string overlaps the transcript segment `[0,5]` with positive
overlap `5`, yet the code assigns `"UNKNOWN"` (the winning label is tested
for truthiness), so `"UNKNOWN"` does not occur exactly when the maximum
overlap is `0`. -/
theorem C3_counterexample :
    0 < overlapQ tSeg05.start tSeg05.stop segEmpty ∧
    ((align_transcription_with_speakers [tSeg05] [segEmpty])[0]?).map
      AlignedSeg.speaker = some "UNKNOWN" := by
  constructor
  · norm_num [overlapQ, tSeg05, segEmpty, max_def, min_def]
  · norm_num [align_transcription_with_speakers, alignOne, bestSpeakerFold,
      speakerStep, overlapQ, pyOrUnknown, tSeg05, segEmpty, max_def, min_def]

/-- C9: every aligned segment preserves all fields of the corresponding
input transcript segment unchanged (`start`, `end`, `text`, `id` and the
remaining fields, collected in `extra`) and differs only by the added
`speaker` label: projecting the `k`-th output back to a transcript segment
gives the `k`-th input. -/
theorem C9_fields_preserved (ts : List TransSeg) (ss : List SpeakerSeg)
    (k : Nat) :
    ((align_transcription_with_speakers ts ss)[k]?).map AlignedSeg.toTransSeg =
      ts[k]? := by
  rw [align_getElem?]
  cases ts[k]? with
  | none => rfl
  | some t => rfl

/-- C10: if the speaker segment with the strictly greatest (positive)
overlap for a transcript segment has the empty string as its label, the
aligner assigns `"UNKNOWN"` rather than the empty string, because the
winning label is tested for truthiness (`best_speaker if best_speaker else
"UNKNOWN"`). -/
theorem C10_empty_label_unknown (ts : List TransSeg) (ss : List SpeakerSeg)
    (k : Nat) (t : TransSeg) (ht : ts[k]? = some t) (i : Nat) (hi : i < ss.length)
    (hpos : 0 < overlapQ t.start t.stop (ss.get ⟨i, hi⟩))
    (hstrict : ∀ j (hj : j < ss.length), j ≠ i →
      overlapQ t.start t.stop (ss.get ⟨j, hj⟩) < overlapQ t.start t.stop (ss.get ⟨i, hi⟩))
    (hemp : (ss.get ⟨i, hi⟩).speaker = "") :
    ((align_transcription_with_speakers ts ss)[k]?).map AlignedSeg.speaker =
      some "UNKNOWN" := by
  rw [align_getElem?, ht]
  have hmax : ∀ s ∈ ss, overlapQ t.start t.stop s ≤
      overlapQ t.start t.stop (ss.get ⟨i, hi⟩) := by
    intro s hs
    obtain ⟨⟨j, hj⟩, hget⟩ := List.mem_iff_get.mp hs
    by_cases hji : j = i
    · subst hji
      rw [← hget]
    · rw [← hget]
      exact le_of_lt (hstrict j hj hji)
  have hfirst : ∀ j (hj : j < ss.length), j < i →
      overlapQ t.start t.stop (ss.get ⟨j, hj⟩) <
        overlapQ t.start t.stop (ss.get ⟨i, hi⟩) :=
    fun j hj hji => hstrict j hj (Nat.ne_of_lt hji)
  have hfold := bsf_first_max t.start t.stop ss (none, 0) i hi hpos hmax hfirst
  have hone : (alignOne ss t).speaker =
      pyOrUnknown (ss.foldl (speakerStep t.start t.stop) (none, 0)).1 := rfl
  show some (alignOne ss t).speaker = _
  rw [hone, hfold, hemp]
  rfl

/-- Witness for C10: the single speaker segment `[0,5]` labelled `""` has
strictly greatest positive overlap `5` with transcript `[0,5]`, and the
aligner outputs `"UNKNOWN"`. -/
theorem C10_empty_label_unknown_witness :
    ((align_transcription_with_speakers [tSeg05] [segEmpty])[0]?).map
      AlignedSeg.speaker = some "UNKNOWN" := by
  refine C10_empty_label_unknown [tSeg05] [segEmpty] 0 tSeg05 rfl 0 (by norm_num)
    (by norm_num [overlapQ, tSeg05, segEmpty, max_def, min_def]) ?_ (by simp [segEmpty])
  intro j hj hne
  have hj0 : j = 0 := Nat.lt_one_iff.mp (by simpa using hj)
  exact absurd hj0 hne

/-
Part 2 embeds the mixed JSON/text extraction core of
`src/scripts/format_output.py` (function `parse_mixed_json_and_text`,
lines 55-141).

Modelling choices:
* The Python string is modelled as `List Char` (a sequence of code points);
  slicing `text[a:b]` is `(cs.drop a).take (b - a)`.
* Whitespace (`str.strip()` and the regex class `\s`) is modelled by the
  ASCII whitespace characters; the function is only ever applied to the
  ASCII-delimited structure of the text.
* `json.loads` is an external library call; the extractor is parameterised
  by an abstract parser `parse : List Char → Option J` returning a tagged
  result (`some` = parsed value, `none` = `json.JSONDecodeError`).  A
  concrete executable instance `jsonParse` (a standard JSON subset) is
  provided for witnesses.
* The function returns the string `"\n\n".flatten(result_parts)`; the parts
  list is modelled as a list of typed chunks (`ContentChunk` of the spec):
  a part appended as plain text becomes `Chunk.text`, a part appended as
  `json.dumps(parsed)` becomes `Chunk.json` carrying the parsed value
  (`json.dumps` output is never the empty string, so `filter(None, ...)`
  can only discard empty text parts).
-/

/-- A typed result chunk: the spec's `ContentChunk`. -/
inductive Chunk (J : Type) where
  | text (s : List Char) : Chunk J
  | json (v : J) : Chunk J
  deriving DecidableEq

/-- ASCII whitespace, modelling Python's `\s` / `str.strip()` on the ASCII
range: space, tab, newline, carriage return, vertical tab, form feed. -/
def isWS (c : Char) : Bool :=
  c = ' ' ∨ c = '\t' ∨ c = '\n' ∨ c = '\r' ∨ c = Char.ofNat 11 ∨ c = Char.ofNat 12

/-- Python `str.strip()`: drop leading and trailing whitespace. -/
def strip (cs : List Char) : List Char :=
  ((cs.dropWhile isWS).reverse.dropWhile isWS).reverse

/-- The backtick character (written via its code point). -/
def btick : Char := Char.ofNat 96

/-- The literal `` ``` `` fence delimiter. -/
def fence : List Char := [btick, btick, btick]

/-- Opening and closing braces / brackets (via code points). -/
def lbrace : Char := Char.ofNat 123

/-- Closing brace. -/
def rbrace : Char := Char.ofNat 125

/-- Opening bracket. -/
def lbrack : Char := '['

/-- Closing bracket. -/
def rbrack : Char := ']'

/-- Lazy search for the closing delimiter of the regex group
`\{.*?\}` / `\[.*?\]` followed by `\s*` and the closing fence
(`markdown_pattern`, line 68).  On the text after the opening delimiter it
returns `(body, ws2, rest)` where `body` ends with the first closing
delimiter that is followed by whitespace and ```` ``` ````, `ws2` is that
whitespace run, and `rest` is the text after the closing fence.  The
non-greedy `.*?` tries the nearest closing delimiter first; `\s*` before a
fence can only match the maximal whitespace run, so the search is
deterministic. -/
def findClose (close : Char) : List Char → Option (List Char × List Char × List Char)
  | [] => none
  | c :: l =>
    if c = close ∧ (l.dropWhile isWS).take 3 = fence then
      some ([c], l.takeWhile isWS, (l.dropWhile isWS).drop 3)
    else
      (findClose close l).map (fun r => (c :: r.1, r.2.1, r.2.2))

/-- The part of the fenced-block regex after the opening fence and the
optional `json` tag: `\s*(\{.*?\}|\[.*?\])\s*` followed by the closing
fence.  Returns `(consumed, group1, rest)` where `consumed` is the matched
text (including the closing fence) and `rest` the text after it.  `\s*`
before the group can only match the maximal whitespace run, since the group
starts with a non-whitespace character; the alternation is deterministic
because each branch requires a distinct first character. -/
def fencedClose (ws : List Char) (o close : Char) (body : List Char) :
    Option (List Char × List Char × List Char) :=
  match findClose close body with
  | some (b, w2, rest) => some (ws ++ o :: (b ++ w2 ++ fence), o :: b, rest)
  | none => none

def fencedTailGo (ws : List Char) : List Char → Option (List Char × List Char × List Char)
  | [] => none
  | o :: body =>
    if o = lbrace then fencedClose ws o rbrace body
    else if o = lbrack then fencedClose ws o rbrack body
    else none

def fencedTail (cs₂ : List Char) : Option (List Char × List Char × List Char) :=
  fencedTailGo (cs₂.takeWhile isWS) (cs₂.dropWhile isWS)

/-- Attempt to match the regex
`` ```(?:json)?\s*(\{.*?\}|\[.*?\])\s*``` `` (with `re.DOTALL`) at the head
of the text.  Returns `(group0, group1, rest)`: the full match, the
delimited JSON-candidate group, and the text after the match.  The optional
`json` tag must be taken when present (otherwise the next character is the
letter `j`, which neither `\s` nor the group can match). -/
def matchFencedAt (cs : List Char) : Option (List Char × List Char × List Char) :=
  if cs.take 3 = fence then
    let cs₁ := cs.drop 3
    let tag := if cs₁.take 4 = ['j', 's', 'o', 'n'] then ['j', 's', 'o', 'n'] else []
    match fencedTail (cs₁.drop tag.length) with
    | some (con, inner, rest) => some (fence ++ tag ++ con, inner, rest)
    | none => none
  else none

/-- The scan `re.finditer(markdown_pattern, text, re.DOTALL)` (line 69):
find successive leftmost non-overlapping matches, advancing by one
character when no match starts at the current position.  Returns the list
of `(gap-before-match, group0, group1)` and the trailing text after the
last match.  The fuel argument only drives termination: each step consumes
at least one character, so `fuel = cs.length` suffices. -/
def scanFencedF : Nat → List Char → List (List Char × List Char × List Char) × List Char
  | 0, cs => ([], cs)
  | _ + 1, [] => ([], [])
  | fuel + 1, c :: cs =>
    match matchFencedAt (c :: cs) with
    | some (full, inner, rest) =>
      let r := scanFencedF fuel rest
      (([], full, inner) :: r.1, r.2)
    | none =>
      match scanFencedF fuel cs with
      | ((g, f, i) :: ms, tr) => ((c :: g, f, i) :: ms, tr)
      | ([], tr) => ([], c :: tr)

/-- All fenced-block matches of the text, with their gaps and the trailing
text (`markdown_matches`, line 69). -/
def scanFenced (cs : List Char) : List (List Char × List Char × List Char) × List Char :=
  scanFencedF cs.length cs

/-- Python slicing `text[a:b]`. -/
def pySlice (cs : List Char) (a b : Nat) : List Char :=
  (cs.drop a).take (b - a)

/-- One step of the brace-counting loop (lines 100-114).  The state is
`(brace_count, start_idx, json_objects)`; `start_idx = none` models `-1`.
The count is an integer: an unmatched closing brace drives it negative,
exactly as in the source. -/
def braceStep (parse : List Char → Option J) (cs : List Char)
    (st : Int × Option Nat × List (Nat × Nat × J)) (p : Nat × Char) :
    Int × Option Nat × List (Nat × Nat × J) :=
  if p.2 = lbrace then
    (st.1 + 1, if st.1 = 0 then some p.1 else st.2.1, st.2.2)
  else if p.2 = rbrace then
    let cnt := st.1 - 1
    if cnt = 0 ∧ st.2.1.isSome then
      match st.2.1 with
      | some s =>
        match parse (pySlice cs s (p.1 + 1)) with
        | some v => (cnt, none, st.2.2 ++ [(s, p.1 + 1, v)])
        | none => (cnt, none, st.2.2)
      | none => (cnt, none, st.2.2)
    else (cnt, st.2.1, st.2.2)
  else st

/-- The brace-counting scan for standalone JSON objects (lines 96-114):
returns `json_objects`, the list of `(start, end, parsed)` spans whose
text parses as JSON.  Spans that fail to parse are discarded. -/
def braceScan (parse : List Char → Option J) (cs : List Char) :
    List (Nat × Nat × J) :=
  (cs.enum.foldl (braceStep parse cs) (0, none, [])).2.2

/-- The assembly loop of strategy 3 (lines 117-138): interleave the stripped
gap text (only when the gap is non-empty before and after stripping) with
the parsed objects, then append the stripped trailing text. -/
def strat3Chunks (cs : List Char) (lastEnd : Nat) :
    List (Nat × Nat × J) → List (Chunk J)
  | [] =>
    if lastEnd < cs.length ∧ strip (cs.drop lastEnd) ≠ [] then
      [Chunk.text (strip (cs.drop lastEnd))]
    else []
  | (s, e, v) :: rest =>
    (if lastEnd < s ∧ strip (pySlice cs lastEnd s) ≠ [] then
      [Chunk.text (strip (pySlice cs lastEnd s))]
    else []) ++ Chunk.json v :: strat3Chunks cs e rest

/-- The chunk emitted for one fenced-block match (lines 73-87): the stripped
gap before the match (appended whenever the gap is non-empty, possibly as an
empty string, later removed by `filter(None, ...)`), then the parsed JSON on
success or the literal full match `match.group(0)` on failure. -/
def processMatch (parse : List Char → Option J)
    (m : List Char × List Char × List Char) : List (Chunk J) :=
  (if m.1 ≠ [] then [Chunk.text (strip m.1)] else []) ++
  [match parse m.2.2 with
   | some v => Chunk.json v
   | none => Chunk.text m.2.1]

/-- `filter(None, result_parts)` (line 93): an empty string is falsy, and
only a plain-text part can be empty (`json.dumps` output never is). -/
def keepChunk : Chunk J → Bool
  | Chunk.text [] => false
  | _ => true

/-- Strategy 2 (lines 71-93): process every fenced-block match in order,
append the stripped trailing text when present, and drop empty parts as
`"\n\n".flatten(filter(None, result_parts))` does. -/
def strategy2 (parse : List Char → Option J)
    (ms : List (List Char × List Char × List Char)) (trail : List Char) :
    List (Chunk J) :=
  ((ms.foldl (fun acc m => acc ++ processMatch parse m) []) ++
    (if trail ≠ [] then [Chunk.text (strip trail)] else [])).filter keepChunk

/-- `parse_mixed_json_and_text` (lines 55-141), at the level of typed
chunks.  The input is stripped first (line 57); then: (1) whole-string
parse, (2) fenced-block scan, (3) brace-counting scan, (4) fallback to the
stripped text. -/
def parse_mixed_json_and_text (parse : List Char → Option J) (text : List Char) :
    List (Chunk J) :=
  let t := strip text
  match parse t with
  | some v => [Chunk.json v]
  | none =>
    let sf := scanFenced t
    if sf.1 ≠ [] then
      strategy2 parse sf.1 sf.2
    else
      let objs := braceScan parse t
      if objs.isEmpty then
        [Chunk.text t]
      else
        strat3Chunks t 0 objs

/-
A concrete, executable stand-in for `json.loads`, used to instantiate the
abstract `parse` parameter in witnesses and counterexamples.  It implements
the standard JSON grammar restricted to: `null`, booleans, integers,
strings without escape sequences, arrays and objects, with the usual
inter-token whitespace.  Inputs outside the subset are rejected, which is
sound for every concrete input used below.
-/

/-- JSON values (integer numbers; strings as character lists). -/
inductive Json where
  | null : Json
  | bool (b : Bool) : Json
  | num (n : Int) : Json
  | str (s : List Char) : Json
  | arr (xs : List Json) : Json
  | obj (kvs : List (List Char × Json)) : Json

/-- The double-quote character. -/
def dquote : Char := Char.ofNat 34

/-- The backslash character. -/
def bslash : Char := Char.ofNat 92

/-- JSON inter-token whitespace (space, tab, newline, carriage return). -/
def jsonWS (c : Char) : Bool :=
  c = ' ' ∨ c = '\t' ∨ c = '\n' ∨ c = '\r'

/-- Drop leading JSON whitespace. -/
def jsonSkip (cs : List Char) : List Char :=
  cs.dropWhile jsonWS

/-- Parse a string body after the opening quote; escape sequences are
outside the modelled subset and rejected. -/
def parseStringBody : List Char → Option (List Char × List Char)
  | [] => none
  | c :: rest =>
    if c = dquote then some ([], rest)
    else if c = bslash then none
    else (parseStringBody rest).map (fun r => (c :: r.1, r.2))

/-- Numeric value of a digit run. -/
def natOfDigits (ds : List Char) : Nat :=
  ds.foldl (fun a c => a * 10 + (c.toNat - 48)) 0

/-- Parse a non-empty run of decimal digits. -/
def parseDigits (cs : List Char) : Option (Nat × List Char) :=
  let ds := cs.takeWhile Char.isDigit
  if ds = [] then none else some (natOfDigits ds, cs.dropWhile Char.isDigit)

mutual

/-- Parse one JSON value (fuel-driven; the fuel only bounds nesting and
list length, `2 * length + 2` always suffices for the inputs used). -/
def parseVal : Nat → List Char → Option (Json × List Char)
  | 0, _ => none
  | fuel + 1, cs₀ =>
    match jsonSkip cs₀ with
    | [] => none
    | c :: rest =>
      if c = 'n' then
        match rest with
        | 'u' :: 'l' :: 'l' :: r => some (Json.null, r)
        | _ => none
      else if c = 't' then
        match rest with
        | 'r' :: 'u' :: 'e' :: r => some (Json.bool true, r)
        | _ => none
      else if c = 'f' then
        match rest with
        | 'a' :: 'l' :: 's' :: 'e' :: r => some (Json.bool false, r)
        | _ => none
      else if c = dquote then
        (parseStringBody rest).map (fun r => (Json.str r.1, r.2))
      else if c = '-' then
        (parseDigits rest).map (fun r => (Json.num (-(r.1 : Int)), r.2))
      else if c.isDigit then
        (parseDigits (c :: rest)).map (fun r => (Json.num (r.1 : Int), r.2))
      else if c = lbrack then
        match jsonSkip rest with
        | d :: r => if d = rbrack then some (Json.arr [], r)
            else (parseElems fuel rest).map (fun r => (Json.arr r.1, r.2))
        | [] => none
      else if c = lbrace then
        match jsonSkip rest with
        | d :: r => if d = rbrace then some (Json.obj [], r)
            else (parseMems fuel rest).map (fun r => (Json.obj r.1, r.2))
        | [] => none
      else none

/-- Parse the comma-separated elements of a non-empty array, up to and
including the closing bracket. -/
def parseElems : Nat → List Char → Option (List Json × List Char)
  | 0, _ => none
  | fuel + 1, cs =>
    match parseVal fuel cs with
    | some (v, r) =>
      (match jsonSkip r with
       | d :: r₂ =>
         if d = ',' then (parseElems fuel r₂).map (fun p => (v :: p.1, p.2))
         else if d = rbrack then some ([v], r₂)
         else none
       | [] => none)
    | none => none

/-- Parse the comma-separated members of a non-empty object, up to and
including the closing brace. -/
def parseMems : Nat → List Char → Option (List (List Char × Json) × List Char)
  | 0, _ => none
  | fuel + 1, cs =>
    match jsonSkip cs with
    | c :: rest =>
      if c = dquote then
        match parseStringBody rest with
        | some (k, r) =>
          (match jsonSkip r with
           | d :: r₂ =>
             if d = ':' then
               match parseVal fuel r₂ with
               | some (v, r₃) =>
                 (match jsonSkip r₃ with
                  | e :: r₄ =>
                    if e = ',' then
                      (parseMems fuel r₄).map (fun p => ((k, v) :: p.1, p.2))
                    else if e = rbrace then some ([(k, v)], r₄)
                    else none
                  | [] => none)
               | none => none
             else none
           | [] => none)
        | none => none
      else none
    | [] => none

end

/-- The concrete `json.loads` model: parse one value and require only
trailing whitespace after it. -/
def jsonParse (cs : List Char) : Option Json :=
  match parseVal (2 * cs.length + 2) cs with
  | some (v, r) => if jsonSkip r = [] then some v else none
  | none => none

/-! ### Supporting lemmas about the fenced-block scanner -/

/-- The shape of a fenced-block match: `group0` contains `group1` and is
delimited by the fence on both sides, so stripping it is the identity. -/
def MatchShape (f i : List Char) : Prop :=
  (∃ pre post, f = pre ++ i ++ post) ∧ (∃ m1, f = fence ++ m1) ∧
  (∃ m2, f = m2 ++ fence) ∧ strip f = f

theorem dropWhile_cons_of_neg (p : Char → Bool) (c : Char) (l : List Char)
    (h : p c = false) : (c :: l).dropWhile p = c :: l := by
  simp [List.dropWhile_cons, h]

theorem isWS_btick : isWS btick = false := by decide

theorem strip_eq_self_of_ends (f : List Char) (c d : Char) (l m : List Char)
    (h1 : f = c :: l) (h2 : f = m ++ [d]) (hc : isWS c = false)
    (hd : isWS d = false) : strip f = f := by
  unfold strip
  rw [h1, dropWhile_cons_of_neg _ _ _ hc, ← h1, h2]
  rw [List.reverse_append, List.reverse_singleton]
  show ((d :: m.reverse).dropWhile isWS).reverse = m ++ [d]
  rw [dropWhile_cons_of_neg _ _ _ hd]
  simp

theorem MatchShape_of (f i : List Char) (h1 : ∃ pre post, f = pre ++ i ++ post)
    (h2 : ∃ m1, f = fence ++ m1) (h3 : ∃ m2, f = m2 ++ fence) :
    MatchShape f i := by
  obtain ⟨m1, hm1⟩ := h2
  obtain ⟨m2, hm2⟩ := h3
  refine ⟨h1, ⟨m1, hm1⟩, ⟨m2, hm2⟩, ?_⟩
  refine strip_eq_self_of_ends f btick btick (btick :: btick :: m1)
    (m2 ++ [btick, btick]) ?_ ?_ isWS_btick isWS_btick
  · rw [hm1]
    rfl
  · rw [hm2]
    simp [fence]

theorem findClose_spec (close : Char) :
    ∀ (l b w r : List Char), findClose close l = some (b, w, r) →
      l = b ++ w ++ fence ++ r
  | [], b, w, r, h => by simp [findClose] at h
  | c :: l, b, w, r, h => by
      unfold findClose at h
      by_cases hc : c = close ∧ (l.dropWhile isWS).take 3 = fence
      · rw [if_pos hc] at h
        simp only [Option.some.injEq, Prod.mk.injEq] at h
        obtain ⟨hb, hw, hr⟩ := h
        subst hb
        subst hw
        subst hr
        have hdw : l.dropWhile isWS = fence ++ (l.dropWhile isWS).drop 3 := by
          conv_lhs => rw [← List.take_append_drop 3 (l.dropWhile isWS)]
          rw [hc.2]
        have hassoc : [c] ++ l.takeWhile isWS ++ fence ++ (l.dropWhile isWS).drop 3
            = c :: (l.takeWhile isWS ++ (fence ++ (l.dropWhile isWS).drop 3)) := by
          simp
        rw [hassoc, ← hdw, List.takeWhile_append_dropWhile]
      · rw [if_neg hc] at h
        cases hfc : findClose close l with
        | none =>
          rw [hfc] at h
          exact absurd h (by simp)
        | some t =>
          rw [hfc] at h
          obtain ⟨b', w', r'⟩ := t
          simp only [Option.map_some', Option.some.injEq, Prod.mk.injEq] at h
          obtain ⟨hb, hw, hr⟩ := h
          subst hb
          subst hw
          subst hr
          have ih := findClose_spec close l b' w' r' hfc
          rw [ih]
          simp

theorem fencedClose_spec (ws : List Char) (o close : Char) (body con inner r : List Char)
    (h : fencedClose ws o close body = some (con, inner, r)) :
    ws ++ o :: body = con ++ r ∧ ∃ pre mid, con = pre ++ inner ++ mid ++ fence := by
  unfold fencedClose at h
  cases hfc : findClose close body with
  | none =>
    rw [hfc] at h
    exact absurd h (by simp)
  | some t =>
    rw [hfc] at h
    obtain ⟨b, w2, rst⟩ := t
    simp only [Option.some.injEq, Prod.mk.injEq] at h
    obtain ⟨hcon, hinn, hrst⟩ := h
    subst hcon
    subst hinn
    subst hrst
    have hbody := findClose_spec close body b w2 rst hfc
    constructor
    · rw [hbody]
      simp
    · exact ⟨ws, w2, by simp⟩

theorem fencedTailGo_spec (ws : List Char) :
    ∀ (rest con inner r : List Char), fencedTailGo ws rest = some (con, inner, r) →
      ws ++ rest = con ++ r ∧ ∃ pre mid, con = pre ++ inner ++ mid ++ fence
  | [], con, inner, r, h => by simp [fencedTailGo] at h
  | o :: body, con, inner, r, h => by
      have he : fencedTailGo ws (o :: body) =
          (if o = lbrace then fencedClose ws o rbrace body
           else if o = lbrack then fencedClose ws o rbrack body else none) := rfl
      rw [he] at h
      by_cases h1 : o = lbrace
      · rw [if_pos h1] at h
        exact fencedClose_spec ws o rbrace body con inner r h
      · rw [if_neg h1] at h
        by_cases h2 : o = lbrack
        · rw [if_pos h2] at h
          exact fencedClose_spec ws o rbrack body con inner r h
        · rw [if_neg h2] at h
          exact absurd h (by simp)

theorem fencedTail_spec (cs₂ con inner rest : List Char)
    (h : fencedTail cs₂ = some (con, inner, rest)) :
    cs₂ = con ++ rest ∧ ∃ pre mid, con = pre ++ inner ++ mid ++ fence := by
  have hgo := fencedTailGo_spec (cs₂.takeWhile isWS) (cs₂.dropWhile isWS)
    con inner rest h
  rw [List.takeWhile_append_dropWhile] at hgo
  exact hgo

theorem fencedTag_decomp (cs₁ : List Char) :
    cs₁ = (if cs₁.take 4 = ['j', 's', 'o', 'n'] then ['j', 's', 'o', 'n'] else []) ++
      cs₁.drop (if cs₁.take 4 = ['j', 's', 'o', 'n'] then
        (['j', 's', 'o', 'n'] : List Char) else []).length := by
  by_cases ht : cs₁.take 4 = ['j', 's', 'o', 'n']
  · rw [if_pos ht]
    conv_lhs => rw [← List.take_append_drop 4 cs₁]
    rw [ht]
    simp
  · rw [if_neg ht]
    simp

theorem matchFencedAt_spec (cs f i r : List Char)
    (h : matchFencedAt cs = some (f, i, r)) :
    cs = f ++ r ∧ MatchShape f i := by
  unfold matchFencedAt at h
  by_cases h3 : cs.take 3 = fence
  swap
  · rw [if_neg h3] at h
    exact absurd h (by simp)
  rw [if_pos h3] at h
  simp only at h
  cases hft : fencedTail ((cs.drop 3).drop
      (if (cs.drop 3).take 4 = ['j', 's', 'o', 'n'] then
        (['j', 's', 'o', 'n'] : List Char) else []).length) with
  | none =>
    rw [hft] at h
    exact absurd h (by simp)
  | some t =>
    rw [hft] at h
    obtain ⟨con, inner, rest⟩ := t
    simp only [Option.some.injEq, Prod.mk.injEq] at h
    obtain ⟨hf, hi, hr⟩ := h
    subst hf
    subst hi
    subst hr
    obtain ⟨hdecomp, pre, mid, hcon⟩ := fencedTail_spec _ _ _ _ hft
    have hcs3 : cs = fence ++ cs.drop 3 := by
      conv_lhs => rw [← List.take_append_drop 3 cs]
      rw [h3]
    constructor
    · conv_lhs => rw [hcs3]
      conv_lhs => rw [fencedTag_decomp (cs.drop 3)]
      rw [hdecomp]
      simp
    · refine MatchShape_of _ _ ?_ ?_ ?_
      · refine ⟨fence ++ (if (cs.drop 3).take 4 = ['j', 's', 'o', 'n'] then
          (['j', 's', 'o', 'n'] : List Char) else []) ++ pre, mid ++ fence, ?_⟩
        rw [hcon]
        simp
      · exact ⟨_, rfl⟩
      · refine ⟨fence ++ (if (cs.drop 3).take 4 = ['j', 's', 'o', 'n'] then
          (['j', 's', 'o', 'n'] : List Char) else []) ++ (pre ++ inner ++ mid), ?_⟩
        rw [hcon]
        simp

theorem scanFencedF_decomp :
    ∀ (fuel : Nat) (cs : List Char),
      ((scanFencedF fuel cs).1.map (fun m => m.1 ++ m.2.1)).flatten ++
        (scanFencedF fuel cs).2 = cs
  | 0, cs => by simp [scanFencedF]
  | _ + 1, [] => by simp [scanFencedF]
  | fuel + 1, c :: cs => by
      rw [scanFencedF]
      cases hm : matchFencedAt (c :: cs) with
      | some t =>
        obtain ⟨full, inner, rest⟩ := t
        have hspec := (matchFencedAt_spec (c :: cs) full inner rest hm).1
        have ih := scanFencedF_decomp fuel rest
        simp only [List.map_cons, List.flatten_cons, List.nil_append,
          List.append_assoc]
        rw [ih]
        exact hspec.symm
      | none =>
        have ih := scanFencedF_decomp fuel cs
        cases hsf : scanFencedF fuel cs with
        | mk ms tr =>
          rw [hsf] at ih
          cases ms with
          | nil =>
            simp only [List.map_nil, List.flatten_nil, List.nil_append] at ih
            simp [ih]
          | cons m ms' =>
            obtain ⟨g, fl, inn⟩ := m
            simp only [List.map_cons, List.flatten_cons, List.append_assoc] at ih ⊢
            simp [← ih]
  termination_by fuel cs => fuel

theorem scanFencedF_shape :
    ∀ (fuel : Nat) (cs : List Char) (m : List Char × List Char × List Char),
      m ∈ (scanFencedF fuel cs).1 → MatchShape m.2.1 m.2.2
  | 0, cs, m, h => by simp [scanFencedF] at h
  | _ + 1, [], m, h => by simp [scanFencedF] at h
  | fuel + 1, c :: cs, m, h => by
      rw [scanFencedF] at h
      revert h
      cases hm : matchFencedAt (c :: cs) with
      | some t =>
        obtain ⟨full, inner, rest⟩ := t
        intro h
        simp only [List.mem_cons] at h
        rcases h with h | h
        · subst h
          exact (matchFencedAt_spec (c :: cs) full inner rest hm).2
        · exact scanFencedF_shape fuel rest m h
      | none =>
        cases hsf : scanFencedF fuel cs with
        | mk ms tr =>
          cases ms with
          | nil =>
            intro h
            simp at h
          | cons m' ms' =>
            obtain ⟨g, fl, inn⟩ := m'
            intro h
            simp only [List.mem_cons] at h
            rcases h with h | h
            · subst h
              have : (g, fl, inn) ∈ (scanFencedF fuel cs).1 := by
                rw [hsf]
                exact List.mem_cons_self _ _
              exact scanFencedF_shape fuel cs (g, fl, inn) this
            · have : m ∈ (scanFencedF fuel cs).1 := by
                rw [hsf]
                exact List.mem_cons_of_mem _ h
              exact scanFencedF_shape fuel cs m this
  termination_by fuel cs m => fuel

/-! ### The round-trip coverage relation -/

/-- `Covers parse pieces chunks`: the pieces partition the (stripped) input
in order, and the chunks are the pieces' contents in the same order — a
whitespace-only piece contributes no chunk, a text piece contributes its
stripped text, and a JSON piece contributes the parsed value of a JSON span
contained in it (for a fenced block, the span between the delimiters; for a
bare object or the whole input, the piece itself). -/
inductive Covers (parse : List Char → Option J) :
    List (List Char) → List (Chunk J) → Prop where
  | nil : Covers parse [] []
  | ws (p : List Char) (ps : List (List Char)) (cs : List (Chunk J)) :
      strip p = [] → Covers parse ps cs → Covers parse (p :: ps) cs
  | txt (p : List Char) (ps : List (List Char)) (cs : List (Chunk J)) :
      strip p ≠ [] → Covers parse ps cs →
      Covers parse (p :: ps) (Chunk.text (strip p) :: cs)
  | jsn (p sub : List Char) (v : J) (ps : List (List Char)) (cs : List (Chunk J)) :
      (∃ d1 d2, p = d1 ++ sub ++ d2) → parse sub = some v → Covers parse ps cs →
      Covers parse (p :: ps) (Chunk.json v :: cs)

theorem Covers.append_covers {J : Type} (parse : List Char → Option J)
    {ps1 ps2 : List (List Char)} {cs1 cs2 : List (Chunk J)}
    (h1 : Covers parse ps1 cs1) (h2 : Covers parse ps2 cs2) :
    Covers parse (ps1 ++ ps2) (cs1 ++ cs2) := by
  induction h1 with
  | nil => simpa using h2
  | ws p ps cs hp _ ih => exact Covers.ws p _ _ hp ih
  | txt p ps cs hp _ ih => exact Covers.txt p _ _ hp ih
  | jsn p sub v ps cs hsub hv _ ih => exact Covers.jsn p sub v _ _ hsub hv ih

theorem foldl_append_list {α β : Type} (f : α → List β) :
    ∀ (l : List α) (acc : List β),
      l.foldl (fun a x => a ++ f x) acc = acc ++ (l.map f).flatten
  | [], acc => by simp
  | x :: l, acc => by
      simp [List.foldl_cons, foldl_append_list f l]

theorem strategy2_eq {J : Type} (parse : List Char → Option J)
    (ms : List (List Char × List Char × List Char)) (trail : List Char) :
    strategy2 parse ms trail =
      ((ms.map (processMatch parse)).flatten ++
        (if trail ≠ [] then [Chunk.text (strip trail)] else [])).filter keepChunk := by
  unfold strategy2
  rw [foldl_append_list]
  simp

theorem covers_match_chunks {J : Type} (parse : List Char → Option J)
    (g f i : List Char) (hshape : MatchShape f i) :
    Covers parse [g, f] ((processMatch parse (g, f, i)).filter keepChunk) := by
  obtain ⟨⟨pre, post, hinf⟩, ⟨m1, hm1⟩, _, hstrip⟩ := hshape
  have hfne : f ≠ [] := by
    rw [hm1]
    simp [fence]
  have hmc : Covers parse [f]
      ([(match parse i with
         | some v => Chunk.json v
         | none => Chunk.text f)].filter keepChunk) := by
    cases hp : parse i with
    | some v =>
      simp only [List.filter, keepChunk]
      exact Covers.jsn f i v [] [] ⟨pre, post, hinf⟩ hp Covers.nil
    | none =>
      have hkeep : keepChunk (Chunk.text f : Chunk J) = true := by
        cases hf : f with
        | nil => exact absurd hf hfne
        | cons a l => simp [keepChunk]
      simp only [List.filter, hkeep]
      have := @Covers.txt J parse f [] [] (by rw [hstrip]; exact hfne)
        (@Covers.nil J parse)
      rwa [hstrip] at this
  by_cases hg : strip g = []
  · have hgp : ((if g = [] then [] else [Chunk.text (strip g)]) :
        List (Chunk J)).filter keepChunk = [] := by
      by_cases hgn : g = []
      · simp [hgn]
      · simp [hgn, hg, keepChunk]
    have : Covers parse ([g] ++ [f])
        ([] ++ ([(match parse i with
           | some v => Chunk.json v
           | none => Chunk.text f)].filter keepChunk)) :=
      Covers.append_covers parse (Covers.ws g [] [] hg Covers.nil) hmc
    simpa [processMatch, List.filter_append, hgp] using this
  · have hgn : g ≠ [] := by
      intro hgo
      rw [hgo] at hg
      exact hg rfl
    have hkeep : keepChunk (Chunk.text (strip g) : Chunk J) = true := by
      cases hsg : strip g with
      | nil => exact absurd hsg hg
      | cons a l => simp [keepChunk]
    have : Covers parse ([g] ++ [f])
        ([Chunk.text (strip g)] ++ ([(match parse i with
           | some v => Chunk.json v
           | none => Chunk.text f)].filter keepChunk)) :=
      Covers.append_covers parse (Covers.txt g [] [] hg Covers.nil) hmc
    simpa [processMatch, List.filter_append, hgn, List.filter, hkeep] using this

theorem covers_strategy2 {J : Type} (parse : List Char → Option J) :
    ∀ (ms : List (List Char × List Char × List Char)) (trail : List Char),
      (∀ m ∈ ms, MatchShape m.2.1 m.2.2) →
      ∃ pieces : List (List Char),
        pieces.flatten = (ms.map (fun m => m.1 ++ m.2.1)).flatten ++ trail ∧
        Covers parse pieces (strategy2 parse ms trail)
  | [], trail, _ => by
      rw [strategy2_eq]
      by_cases ht : trail = []
      · refine ⟨[], by simp [ht], ?_⟩
        simp [ht]
        exact Covers.nil
      · refine ⟨[trail], by simp, ?_⟩
        by_cases hst : strip trail = []
        · have : ((if trail ≠ [] then [Chunk.text (strip trail)] else []) :
              List (Chunk J)).filter keepChunk = [] := by
            simp [ht, hst, keepChunk]
          simp only [List.map_nil, List.flatten_nil, List.nil_append, this]
          exact Covers.ws trail [] [] hst Covers.nil
        · have hkeep : keepChunk (Chunk.text (strip trail) : Chunk J) = true := by
            cases hsg : strip trail with
            | nil => exact absurd hsg hst
            | cons a l => simp [keepChunk]
          have : ((if trail ≠ [] then [Chunk.text (strip trail)] else []) :
              List (Chunk J)).filter keepChunk = [Chunk.text (strip trail)] := by
            simp [ht, List.filter, hkeep]
          simp only [List.map_nil, List.flatten_nil, List.nil_append, this]
          exact Covers.txt trail [] [] hst Covers.nil
  | m :: ms', trail, hshape => by
      obtain ⟨g, f, i⟩ := m
      obtain ⟨pieces', hj, hc⟩ := covers_strategy2 parse ms' trail
        (fun x hx => hshape x (List.mem_cons_of_mem _ hx))
      refine ⟨[g, f] ++ pieces', ?_, ?_⟩
      · simp only [List.flatten_cons, List.flatten_append, List.map_cons]
        rw [hj]
        simp
      · have hsplit : strategy2 parse ((g, f, i) :: ms') trail =
            (processMatch parse (g, f, i)).filter keepChunk ++
              strategy2 parse ms' trail := by
          rw [strategy2_eq, strategy2_eq]
          simp [List.filter_append]
        rw [hsplit]
        exact Covers.append_covers parse
          (covers_match_chunks parse g f i (hshape _ (List.mem_cons_self _ _)))
          hc

/-! ### Supporting lemmas about the brace-counting scan -/

/-- Well-formedness of the recorded `json_objects`: spans are ordered,
non-overlapping, start at or after `lb`, and each parses to its value. -/
def ScanInv (parse : List Char → Option J) (cs : List Char) :
    Nat → List (Nat × Nat × J) → Prop
  | _, [] => True
  | lb, (s, e, v) :: rest =>
    lb ≤ s ∧ s < e ∧ parse (pySlice cs s e) = some v ∧ ScanInv parse cs e rest

/-- The end of the last recorded span (or `lb` when none). -/
def lastEnd {J : Type} : Nat → List (Nat × Nat × J) → Nat
  | lb, [] => lb
  | _, (_, e, _) :: rest => lastEnd e rest

theorem ScanInv_append {J : Type} (parse : List Char → Option J) (cs : List Char) :
    ∀ (objs : List (Nat × Nat × J)) (lb s e : Nat) (v : J),
      ScanInv parse cs lb objs → lastEnd lb objs ≤ s → s < e →
      parse (pySlice cs s e) = some v →
      ScanInv parse cs lb (objs ++ [(s, e, v)]) ∧
        lastEnd lb (objs ++ [(s, e, v)]) = e
  | [], lb, s, e, v, _, hle, hse, hp =>
      ⟨⟨hle, hse, hp, trivial⟩, rfl⟩
  | (s', e', v') :: rest, lb, s, e, v, hinv, hle, hse, hp => by
      obtain ⟨h1, h2, h3, h4⟩ := hinv
      have ih := ScanInv_append parse cs rest e' s e v h4 hle hse hp
      exact ⟨⟨h1, h2, h3, ih.1⟩, ih.2⟩

/-- The loop invariant of the brace-counting scan after the first `n`
characters. -/
def BInv (parse : List Char → Option J) (cs : List Char) (n : Nat)
    (st : Int × Option Nat × List (Nat × Nat × J)) : Prop :=
  ScanInv parse cs 0 st.2.2 ∧ lastEnd 0 st.2.2 ≤ n ∧
  ∀ s, st.2.1 = some s → lastEnd 0 st.2.2 ≤ s ∧ s < n

theorem braceStep_inv {J : Type} (parse : List Char → Option J) (cs : List Char)
    (n : Nat) (c : Char) (st : Int × Option Nat × List (Nat × Nat × J))
    (h : BInv parse cs n st) :
    BInv parse cs (n + 1) (braceStep parse cs st (n, c)) := by
  obtain ⟨h1, h2, h3⟩ := h
  unfold braceStep
  simp only []
  by_cases hc1 : c = lbrace
  · rw [if_pos hc1]
    refine ⟨h1, le_trans h2 (Nat.le_succ n), ?_⟩
    intro s hs
    by_cases hz : st.1 = 0
    · rw [if_pos hz] at hs
      have : n = s := by
        simpa using hs
      subst this
      exact ⟨h2, Nat.lt_succ_self n⟩
    · rw [if_neg hz] at hs
      obtain ⟨ha, hb⟩ := h3 s hs
      exact ⟨ha, Nat.lt_succ_of_lt hb⟩
  · rw [if_neg hc1]
    by_cases hc2 : c = rbrace
    · rw [if_pos hc2]
      by_cases hz : st.1 - 1 = 0 ∧ st.2.1.isSome
      · rw [if_pos hz]
        cases hsx : st.2.1 with
        | none =>
          rw [hsx] at hz
          exact absurd hz.2 (by simp)
        | some s =>
          obtain ⟨hla, hlb⟩ := h3 s hsx
          show BInv parse cs (n + 1)
            (match parse (pySlice cs s (n + 1)) with
             | some v => (st.1 - 1, none, st.2.2 ++ [(s, n + 1, v)])
             | none => (st.1 - 1, none, st.2.2))
          cases hp : parse (pySlice cs s (n + 1)) with
          | some v =>
            show BInv parse cs (n + 1) (st.1 - 1, none, st.2.2 ++ [(s, n + 1, v)])
            have happ := ScanInv_append parse cs st.2.2 0 s (n + 1) v h1 hla
              (Nat.lt_succ_of_lt hlb) hp
            refine ⟨happ.1, ?_, ?_⟩
            · show lastEnd 0 (st.2.2 ++ [(s, n + 1, v)]) ≤ n + 1
              rw [happ.2]
            · intro s' hs'
              exact absurd hs' (by simp)
          | none =>
            show BInv parse cs (n + 1) (st.1 - 1, none, st.2.2)
            refine ⟨h1, le_trans h2 (Nat.le_succ n), ?_⟩
            intro s' hs'
            exact absurd hs' (by simp)
      · rw [if_neg hz]
        refine ⟨h1, le_trans h2 (Nat.le_succ n), ?_⟩
        intro s hs
        obtain ⟨ha, hb⟩ := h3 s hs
        exact ⟨ha, Nat.lt_succ_of_lt hb⟩
    · rw [if_neg hc2]
      refine ⟨h1, le_trans h2 (Nat.le_succ n), ?_⟩
      intro s hs
      obtain ⟨ha, hb⟩ := h3 s hs
      exact ⟨ha, Nat.lt_succ_of_lt hb⟩

theorem foldl_braceStep_inv {J : Type} (parse : List Char → Option J)
    (cs : List Char) :
    ∀ (l : List Char) (n : Nat) (st : Int × Option Nat × List (Nat × Nat × J)),
      BInv parse cs n st →
      BInv parse cs (n + l.length)
        ((List.enumFrom n l).foldl (braceStep parse cs) st)
  | [], n, st, h => by simpa using h
  | c :: l, n, st, h => by
      have h1 := braceStep_inv parse cs n c st h
      have ih := foldl_braceStep_inv parse cs l (n + 1) _ h1
      have harith : n + (c :: l).length = n + 1 + l.length := by
        simp [List.length_cons]
        omega
      rw [harith]
      exact ih

theorem braceScan_inv {J : Type} (parse : List Char → Option J) (cs : List Char) :
    ScanInv parse cs 0 (braceScan parse cs) ∧
      lastEnd 0 (braceScan parse cs) ≤ cs.length := by
  have h0 : BInv parse cs 0 ((0 : Int), (none : Option Nat),
      ([] : List (Nat × Nat × J))) := by
    refine ⟨trivial, le_refl 0, ?_⟩
    intro s hs
    exact absurd hs (by simp)
  have hfold := foldl_braceStep_inv parse cs cs 0 _ h0
  unfold braceScan
  have henum : cs.enum = List.enumFrom 0 cs := rfl
  rw [henum]
  exact ⟨hfold.1, by simpa using hfold.2.1⟩

theorem pySlice_append_drop (cs : List Char) (a b : Nat) (hab : a ≤ b) :
    pySlice cs a b ++ cs.drop b = cs.drop a := by
  unfold pySlice
  have : cs.drop b = (cs.drop a).drop (b - a) := by
    rw [List.drop_drop, Nat.add_sub_cancel' hab]
  rw [this, List.take_append_drop]

theorem covers_strat3 {J : Type} (parse : List Char → Option J) (cs : List Char) :
    ∀ (objs : List (Nat × Nat × J)) (le : Nat), ScanInv parse cs le objs →
      ∃ pieces : List (List Char), pieces.flatten = cs.drop le ∧
        Covers parse pieces (strat3Chunks cs le objs)
  | [], le, _ => by
      unfold strat3Chunks
      by_cases hcond : le < cs.length ∧ strip (cs.drop le) ≠ []
      · rw [if_pos hcond]
        exact ⟨[cs.drop le], by simp, Covers.txt _ [] [] hcond.2 Covers.nil⟩
      · rw [if_neg hcond]
        refine ⟨[cs.drop le], by simp, ?_⟩
        have hstrip : strip (cs.drop le) = [] := by
          by_cases h1 : le < cs.length
          · by_cases h2 : strip (cs.drop le) = []
            · exact h2
            · exact absurd ⟨h1, h2⟩ hcond
          · have hnil : cs.drop le = [] :=
              List.drop_eq_nil_of_le (le_of_not_lt h1)
            rw [hnil]
            rfl
        exact Covers.ws _ [] [] hstrip Covers.nil
  | (s, e, v) :: rest, le, hinv => by
      obtain ⟨hle, hse, hparse, hrest⟩ := hinv
      obtain ⟨pieces', hj, hc⟩ := covers_strat3 parse cs rest e hrest
      unfold strat3Chunks
      refine ⟨[pySlice cs le s, pySlice cs s e] ++ pieces', ?_, ?_⟩
      · simp only [List.cons_append, List.flatten_cons, List.nil_append]
        rw [hj, pySlice_append_drop cs s e (le_of_lt hse),
          pySlice_append_drop cs le s hle]
      · have hjsn : Covers parse (pySlice cs s e :: pieces')
            (Chunk.json v :: strat3Chunks cs e rest) :=
          Covers.jsn _ _ v _ _ ⟨[], [], by simp⟩ hparse hc
        by_cases hg : le < s ∧ strip (pySlice cs le s) ≠ []
        · rw [if_pos hg]
          exact Covers.txt _ _ _ hg.2 hjsn
        · rw [if_neg hg]
          have hstrip : strip (pySlice cs le s) = [] := by
            by_cases h1 : le < s
            · by_cases h2 : strip (pySlice cs le s) = []
              · exact h2
              · exact absurd ⟨h1, h2⟩ hg
            · have hs_le : s ≤ le := le_of_not_lt h1
              have hsl : s = le := Nat.le_antisymm hs_le hle
              subst hsl
              have : pySlice cs s s = [] := by
                unfold pySlice
                simp
              rw [this]
              rfl
          exact Covers.ws _ _ _ hstrip hjsn

/-! ### Branch equations for the extractor -/

theorem extract_eq_strategy1 {J : Type} (parse : List Char → Option J)
    (text : List Char) (v : J) (h : parse (strip text) = some v) :
    parse_mixed_json_and_text parse text = [Chunk.json v] := by
  unfold parse_mixed_json_and_text
  dsimp only
  rw [h]

theorem extract_eq_strategy2 {J : Type} (parse : List Char → Option J)
    (text : List Char) (h1 : parse (strip text) = none)
    (h2 : (scanFenced (strip text)).1 ≠ []) :
    parse_mixed_json_and_text parse text =
      strategy2 parse (scanFenced (strip text)).1 (scanFenced (strip text)).2 := by
  unfold parse_mixed_json_and_text
  dsimp only
  rw [h1, if_pos h2]

theorem extract_eq_strategy3 {J : Type} (parse : List Char → Option J)
    (text : List Char) (h1 : parse (strip text) = none)
    (h2 : (scanFenced (strip text)).1 = [])
    (h3 : braceScan parse (strip text) ≠ []) :
    parse_mixed_json_and_text parse text =
      strat3Chunks (strip text) 0 (braceScan parse (strip text)) := by
  unfold parse_mixed_json_and_text
  dsimp only
  have h2' : ¬((scanFenced (strip text)).1 ≠ []) := by
    intro hx
    exact hx h2
  have h3' : ¬((braceScan parse (strip text)).isEmpty = true) := by
    cases hb : braceScan parse (strip text) with
    | nil => exact absurd hb h3
    | cons a l => simp
  rw [h1, if_neg h2', if_neg h3']

theorem extract_eq_fallback {J : Type} (parse : List Char → Option J)
    (text : List Char) (h1 : parse (strip text) = none)
    (h2 : (scanFenced (strip text)).1 = [])
    (h3 : braceScan parse (strip text) = []) :
    parse_mixed_json_and_text parse text = [Chunk.text (strip text)] := by
  unfold parse_mixed_json_and_text
  dsimp only
  have h2' : ¬((scanFenced (strip text)).1 ≠ []) := by
    intro hx
    exact hx h2
  have h3' : (braceScan parse (strip text)).isEmpty = true := by
    rw [h3]
    rfl
  rw [h1, if_neg h2', if_pos h3']

/-! ### Membership and non-emptiness helpers -/

theorem ScanInv_mem {J : Type} (parse : List Char → Option J) (cs : List Char) :
    ∀ (objs : List (Nat × Nat × J)) (lb s e : Nat) (v : J),
      ScanInv parse cs lb objs → (s, e, v) ∈ objs →
      parse (pySlice cs s e) = some v
  | [], _, _, _, _, _, hmem => absurd hmem (List.not_mem_nil _)
  | (s', e', v') :: rest, lb, s, e, v, hinv, hmem => by
      obtain ⟨_, _, hp, hrest⟩ := hinv
      rcases List.mem_cons.mp hmem with h | h
      · simp only [Prod.mk.injEq] at h
        obtain ⟨hs, he, hv⟩ := h
        subst hs
        subst he
        subst hv
        exact hp
      · exact ScanInv_mem parse cs rest e' s e v hrest h

theorem mem_strategy2_text {J : Type} (parse : List Char → Option J)
    (ms : List (List Char × List Char × List Char)) (trail g f i : List Char)
    (hm : (g, f, i) ∈ ms) (hp : parse i = none) (hf : f ≠ []) :
    (Chunk.text f : Chunk J) ∈ strategy2 parse ms trail := by
  rw [strategy2_eq]
  apply List.mem_filter.mpr
  constructor
  · apply List.mem_append_left
    apply List.mem_flatten.mpr
    refine ⟨processMatch parse (g, f, i), List.mem_map_of_mem _ hm, ?_⟩
    unfold processMatch
    apply List.mem_append_right
    simp [hp]
  · cases hfc : f with
    | nil => exact absurd hfc hf
    | cons a l => simp [keepChunk]

theorem mem_strategy2_json {J : Type} (parse : List Char → Option J)
    (ms : List (List Char × List Char × List Char)) (trail g f i : List Char)
    (v : J) (hm : (g, f, i) ∈ ms) (hp : parse i = some v) :
    (Chunk.json v : Chunk J) ∈ strategy2 parse ms trail := by
  rw [strategy2_eq]
  apply List.mem_filter.mpr
  constructor
  · apply List.mem_append_left
    apply List.mem_flatten.mpr
    refine ⟨processMatch parse (g, f, i), List.mem_map_of_mem _ hm, ?_⟩
    unfold processMatch
    apply List.mem_append_right
    simp [hp]
  · simp [keepChunk]

theorem strategy2_ne_nil {J : Type} (parse : List Char → Option J)
    (ms : List (List Char × List Char × List Char)) (trail : List Char)
    (m : List Char × List Char × List Char) (hm : m ∈ ms)
    (hshape : MatchShape m.2.1 m.2.2) : strategy2 parse ms trail ≠ [] := by
  obtain ⟨g, f, i⟩ := m
  obtain ⟨_, ⟨m1, hm1⟩, _, _⟩ := hshape
  have hf : f ≠ [] := by
    have hm1' : f = fence ++ m1 := hm1
    rw [hm1']
    simp [fence]
  intro hnil
  cases hp : parse i with
  | none =>
    have hmem := mem_strategy2_text parse ms trail g f i hm hp hf
    rw [hnil] at hmem
    exact absurd hmem (List.not_mem_nil _)
  | some v =>
    have hmem := mem_strategy2_json parse ms trail g f i v hm hp
    rw [hnil] at hmem
    exact absurd hmem (List.not_mem_nil _)

theorem strat3Chunks_ne_nil {J : Type} (cs : List Char) (le : Nat)
    (s e : Nat) (v : J) (rest : List (Nat × Nat × J)) :
    strat3Chunks cs le ((s, e, v) :: rest) ≠ [] := by
  unfold strat3Chunks
  intro h
  rcases List.append_eq_nil.mp h with ⟨_, h2⟩
  exact absurd h2 (by simp)

/-! ### Claims C4, C5, C6, C7, C8 about the extractor -/

/-- C4: the two parse-failure policies differ as claimed.  First conjunct
(strategy 2): a fenced-block match whose delimited content fails to parse is
emitted as a `Text` chunk holding the entire match verbatim — a span that
begins and ends with the triple-backtick fence.  Second conjunct
(strategy 3): every candidate recorded by the brace-counting scan parses
successfully, i.e. a captured brace span that fails to parse is discarded
and never becomes a chunk of its own (its characters are only ever part of
a surrounding gap). -/
theorem C4_failed_parse_asymmetry :
    (∀ (J : Type) (parse : List Char → Option J) (text g f i : List Char),
      parse (strip text) = none → (g, f, i) ∈ (scanFenced (strip text)).1 →
      parse i = none →
      (Chunk.text f : Chunk J) ∈ parse_mixed_json_and_text parse text ∧
        (∃ m1, f = fence ++ m1) ∧ (∃ m2, f = m2 ++ fence)) ∧
    (∀ (J : Type) (parse : List Char → Option J) (cs : List Char)
      (s e : Nat) (v : J),
      (s, e, v) ∈ braceScan parse cs → parse (pySlice cs s e) = some v) := by
  constructor
  · intro J parse text g f i h1 hmem hpf
    have hshape := scanFencedF_shape (strip text).length (strip text) (g, f, i) hmem
    obtain ⟨_, ⟨m1, hm1⟩, ⟨m2, hm2⟩, _⟩ := hshape
    have hf : f ≠ [] := by
      have hm1' : f = fence ++ m1 := hm1
      rw [hm1']
      simp [fence]
    have hne : (scanFenced (strip text)).1 ≠ [] := by
      intro hnil
      rw [hnil] at hmem
      exact absurd hmem (List.not_mem_nil _)
    rw [extract_eq_strategy2 parse text h1 hne]
    exact ⟨mem_strategy2_text parse _ _ g f i hmem hpf hf, ⟨m1, hm1⟩, ⟨m2, hm2⟩⟩
  · intro J parse cs s e v hmem
    exact ScanInv_mem parse cs (braceScan parse cs) 0 s e v
      (braceScan_inv parse cs).1 hmem

/-- Witness for C4: in `"a ```{bad}``` b"` the fenced content `{bad}` fails
to parse and the whole fenced block (backticks included) appears as a text
chunk; in `"x {bad} {"a":1}"` the failed candidate `{bad}` is dropped by the
brace scan while the recorded span `[8,15)` parses to `{a: 1}`. -/
theorem C4_failed_parse_asymmetry_witness :
    (Chunk.text ("```\x7bbad\x7d```".toList) : Chunk Json) ∈
      parse_mixed_json_and_text jsonParse ("a ```\x7bbad\x7d``` b".toList) ∧
    jsonParse (pySlice ("x \x7bbad\x7d \x7b\"a\":1\x7d".toList) 8 15) =
      some (Json.obj [(['a'], Json.num 1)]) := by
  constructor
  · exact (C4_failed_parse_asymmetry.1 Json jsonParse
      ("a ```\x7bbad\x7d``` b".toList) ("a ".toList)
      ("```\x7bbad\x7d```".toList) ("\x7bbad\x7d".toList)
      (by rfl) (by decide) (by rfl)).1
  · refine C4_failed_parse_asymmetry.2 Json jsonParse
      ("x \x7bbad\x7d \x7b\"a\":1\x7d".toList) 8 15
      (Json.obj [(['a'], Json.num 1)]) ?_
    have hb : braceScan jsonParse ("x \x7bbad\x7d \x7b\"a\":1\x7d".toList) =
        [(8, 15, Json.obj [(['a'], Json.num 1)])] := rfl
    rw [hb]
    exact List.mem_singleton_self _

/-- C5 (amended): when no strategy finds structured JSON content (the
trimmed string does not parse, no fenced block matches, and the brace scan
records no successfully parsed candidate), the extractor returns a single
`Text` chunk containing the *trimmed* input.  (As literally stated the
claim fails: line 57 strips the input before any strategy runs, and the
fallback at line 141 returns that stripped text, not the original untrimmed
input; the two coincide exactly when the input has no leading or trailing
whitespace.) -/
theorem C5_fallback_trimmed {J : Type} (parse : List Char → Option J)
    (text : List Char) (h1 : parse (strip text) = none)
    (h2 : (scanFenced (strip text)).1 = [])
    (h3 : braceScan parse (strip text) = []) :
    parse_mixed_json_and_text parse text = [Chunk.text (strip text)] :=
  extract_eq_fallback parse text h1 h2 h3

/-- Witness for C5: `extract("no json here")` is one `Text` chunk equal to
the (already trimmed) input. -/
theorem C5_fallback_trimmed_witness :
    parse_mixed_json_and_text jsonParse ("no json here".toList) =
      [Chunk.text (strip ("no json here".toList))] :=
  C5_fallback_trimmed jsonParse ("no json here".toList) (by rfl) (by rfl) (by rfl)

/-- Counterexample for C5 as stated: on the input `"  no json here"` (with
leading whitespace, no JSON anywhere) the extractor returns one `Text`
chunk containing `"no json here"`, which differs from the original,
untrimmed input. -/
theorem C5_counterexample :
    parse_mixed_json_and_text jsonParse ("  no json here".toList) =
      [Chunk.text ("no json here".toList)] ∧
    ("no json here".toList : List Char) ≠ "  no json here".toList := by
  constructor
  · rfl
  · decide

/-- C6: if the trimmed input parses as a single JSON value, the extractor
returns exactly one `Json` chunk carrying that value (the parse of the
entire trimmed input), and no other strategy contributes chunks. -/
theorem C6_whole_string_parse {J : Type} (parse : List Char → Option J)
    (text : List Char) (v : J) (h : parse (strip text) = some v) :
    parse_mixed_json_and_text parse text = [Chunk.json v] :=
  extract_eq_strategy1 parse text v h

/-- Witness for C6: `extract('{"a":1}')` is exactly one `Json` chunk with
value `{a: 1}`. -/
theorem C6_whole_string_parse_witness :
    parse_mixed_json_and_text jsonParse ("\x7b\"a\":1\x7d".toList) =
      [Chunk.json (Json.obj [(['a'], Json.num 1)])] :=
  C6_whole_string_parse jsonParse ("\x7b\"a\":1\x7d".toList)
    (Json.obj [(['a'], Json.num 1)]) (by rfl)

/-- C7: the extractor is total by construction (it is a total function in
this embedding; every JSON-parse failure is handled locally by the
branching on the parser's `Option` result), and it always returns at least
one chunk — in the worst case the single-`Text`-chunk fallback. -/
theorem C7_total_nonempty {J : Type} (parse : List Char → Option J)
    (text : List Char) : parse_mixed_json_and_text parse text ≠ [] := by
  cases hp : parse (strip text) with
  | some v =>
    rw [extract_eq_strategy1 parse text v hp]
    simp
  | none =>
    by_cases hms : (scanFenced (strip text)).1 = []
    · by_cases hbs : braceScan parse (strip text) = []
      · rw [extract_eq_fallback parse text hp hms hbs]
        simp
      · rw [extract_eq_strategy3 parse text hp hms hbs]
        obtain ⟨⟨s, e, v⟩, rest, hobjs⟩ :
            ∃ o rest, braceScan parse (strip text) = o :: rest := by
          cases h : braceScan parse (strip text) with
          | nil => exact absurd h hbs
          | cons o rest => exact ⟨o, rest, rfl⟩
        rw [hobjs]
        exact strat3Chunks_ne_nil _ _ _ _ _ _
    · rw [extract_eq_strategy2 parse text hp hms]
      obtain ⟨m, ms', hml⟩ :
          ∃ m ms', (scanFenced (strip text)).1 = m :: ms' := by
        cases h : (scanFenced (strip text)).1 with
        | nil => exact absurd h hms
        | cons m ms' => exact ⟨m, ms', rfl⟩
      refine strategy2_ne_nil parse _ _ m ?_ ?_
      · rw [hml]
        exact List.mem_cons_self _ _
      · refine scanFencedF_shape (strip text).length (strip text) m ?_
        show m ∈ (scanFenced (strip text)).1
        rw [hml]
        exact List.mem_cons_self _ _

/-- C8: round-trip / positional coverage.  For every input classified by
strategies 1-3, the trimmed input splits into consecutive pieces whose
concatenation is the whole trimmed input, and the returned chunks are
exactly those pieces in order: a whitespace-only piece is dropped, a text
piece appears as its stripped text, and each `Json` chunk carries the
parsed value of the JSON span inside its piece (the piece itself for the
whole-string and brace strategies, the fenced content for strategy 2). -/
theorem C8_round_trip {J : Type} (parse : List Char → Option J)
    (text : List Char)
    (h : (parse (strip text)).isSome = true ∨ (scanFenced (strip text)).1 ≠ [] ∨
      braceScan parse (strip text) ≠ []) :
    ∃ pieces : List (List Char), pieces.flatten = strip text ∧
      Covers parse pieces (parse_mixed_json_and_text parse text) := by
  cases hp : parse (strip text) with
  | some v =>
    rw [extract_eq_strategy1 parse text v hp]
    exact ⟨[strip text], by simp,
      Covers.jsn _ _ v [] [] ⟨[], [], by simp⟩ hp Covers.nil⟩
  | none =>
    by_cases hms : (scanFenced (strip text)).1 = []
    · by_cases hbs : braceScan parse (strip text) = []
      · rcases h with h | h | h
        · rw [hp] at h
          simp at h
        · exact absurd hms h
        · exact absurd hbs h
      · rw [extract_eq_strategy3 parse text hp hms hbs]
        obtain ⟨pieces, hj, hcov⟩ := covers_strat3 parse (strip text)
          (braceScan parse (strip text)) 0 (braceScan_inv parse (strip text)).1
        exact ⟨pieces, by simpa using hj, hcov⟩
    · rw [extract_eq_strategy2 parse text hp hms]
      obtain ⟨pieces, hj, hcov⟩ := covers_strategy2 parse
        (scanFenced (strip text)).1 (scanFenced (strip text)).2
        (fun m hm => scanFencedF_shape (strip text).length (strip text) m hm)
      refine ⟨pieces, ?_, hcov⟩
      rw [hj]
      exact scanFencedF_decomp (strip text).length (strip text)

/-- Witness for C8: the brace-counting example
`'prefix {"x": {"y": 1}} suffix'` is covered by pieces that concatenate to
the whole (trimmed) input. -/
theorem C8_round_trip_witness :
    ∃ pieces : List (List Char),
      pieces.flatten = strip ("prefix \x7b\"x\": \x7b\"y\": 1\x7d\x7d suffix".toList) ∧
      Covers jsonParse pieces (parse_mixed_json_and_text jsonParse
        ("prefix \x7b\"x\": \x7b\"y\": 1\x7d\x7d suffix".toList)) := by
  refine C8_round_trip jsonParse _ (Or.inr (Or.inr ?_))
  intro hnil
  have hlen : (braceScan jsonParse
      (strip ("prefix \x7b\"x\": \x7b\"y\": 1\x7d\x7d suffix".toList))).length = 1 := by
    rfl
  rw [hnil] at hlen
  simp at hlen
